import Mathlib

/-!
Verification of the text-normalization and formatting pipeline of the
AI Resume & Portfolio Builder (`src/app.py`).

Python strings are embedded as `List Char`; a text is a string whose lines
are separated by the newline character (the model restricts `str.splitlines`
to the `'\n'` separator, which is the only line separator the program ever
produces, and restricts `str.upper` to the ASCII case map).
Each Python helper is translated into a computable Lean function; loops over
line lists become structural recursions.
-/

namespace Resume

/-- A Python string, embedded as a list of characters. -/
abbrev Str := List Char

/-- Shorthand for writing embedded strings from Lean string literals. -/
def txt (s : String) : Str := s.toList

/-- Characters stripped by Python `str.strip()` / `str.rstrip()`
(Python's notion of whitespace: ASCII whitespace, the C1 controls
FS..US, NEL, NBSP, and the Unicode space separators). -/
def pyIsSpace (c : Char) : Bool :=
  c.toNat ∈ [9, 10, 11, 12, 13, 28, 29, 30, 31, 32, 133, 160, 0x1680,
    0x2028, 0x2029, 0x202F, 0x205F, 0x3000] ||
  (0x2000 ≤ c.toNat && c.toNat ≤ 0x200A)

/-- Python `str.lstrip()`. -/
def lstrip (s : Str) : Str := s.dropWhile pyIsSpace

/-- Python `str.rstrip()`. -/
def rstrip (s : Str) : Str := (s.reverse.dropWhile pyIsSpace).reverse

/-- Python `str.strip()`. -/
def strip (s : Str) : Str := lstrip (rstrip s)

/-- ASCII uppercase map for a single character (model of Python `str.upper`). -/
def upperChar (c : Char) : Char :=
  if 'a' ≤ c ∧ c ≤ 'z' then Char.ofNat (c.toNat - 32) else c

/-- Python `str.upper()` (restricted to the ASCII case map). -/
def upperA (s : Str) : Str := s.map upperChar

/-- Does the string end with the character `c`? (Python `str.endswith`). -/
def lastIs (s : Str) (c : Char) : Bool :=
  match s.reverse with
  | [] => false
  | c' :: _ => c' = c

/-- Drop one trailing colon, as in `if s.endswith(":"): s = s[:-1]`. -/
def dropOneColon (s : Str) : Str :=
  if lastIs s ':' then s.dropLast else s

/-- Drop all trailing colons, as in Python `s.rstrip(":")`. -/
def rstripColons (s : Str) : Str :=
  (s.reverse.dropWhile (fun c => c = ':')).reverse

/-- Does the string end with two (or more) colons?  On such strings — and only
on such — `s.rstrip(":")` and the one-colon drop of `normalize_heading`
disagree. -/
def endsTwoColons (s : Str) : Bool :=
  match s.reverse with
  | ':' :: ':' :: _ => true
  | _ => false

/-- Helper for `splitlines`: prepend a character to the first line. -/
def consHead (c : Char) : List Str → List Str
  | [] => [[c]]
  | l :: ls => (c :: l) :: ls

/-- Python `str.splitlines()` for `'\n'`-separated text:
`"" ↦ []`, `"a\nb" ↦ ["a","b"]`, a trailing newline produces no extra line. -/
def splitlines : Str → List Str
  | [] => []
  | c :: rest => if c = '\n' then [] :: splitlines rest else consHead c (splitlines rest)

/-- Python `sep.join(lines)`. -/
def joinSep (sep : Str) : List Str → Str
  | [] => []
  | [l] => l
  | l :: l' :: ls => l ++ sep ++ joinSep sep (l' :: ls)

/-- Python `"\n".join(lines)`. -/
def joinNL (ls : List Str) : Str := joinSep (txt "\n") ls

/-- The fixed 11-entry heading set `HEADINGS` of `app.py`. -/
def HEADINGS : List Str :=
  [txt "PROFESSIONAL OVERVIEW", txt "EDUCATION", txt "SKILLS",
   txt "EXPERIENCE / INTERNSHIPS", txt "PROJECTS", txt "PUBLICATIONS",
   txt "CERTIFICATIONS / HANDS-ON", txt "ACHIEVEMENTS", txt "PARTICIPATIONS",
   txt "POSITIONS OF RESPONSIBILITY / CO-CURRICULAR INVOLVEMENT", txt "TARGET ROLE"]

/-- `normalize_heading`: trim whitespace, drop one trailing colon, uppercase. -/
def normalize_heading (line : Str) : Str :=
  upperA (dropOneColon (strip line))

/-- Loop body of `strip_heading_menu`: walks the lines; returns `none` when no
non-blank non-heading line is ever seen (`saw_non_heading` stays false), and
otherwise `some (saw, suffix)` where `suffix` is `lines[i:]` for the index `i`
the loop leaves behind (one past the last heading consumed) and `saw` records
whether any heading line was consumed before the break. -/
def menuCore : List Str → Option (Bool × List Str)
  | [] => none
  | l :: ls =>
    if (strip l).isEmpty then
      match menuCore ls with
      | none => none
      | some (true, r) => some (true, r)
      | some (false, r) => some (false, l :: r)
    else if normalize_heading l ∈ HEADINGS then
      match menuCore ls with
      | none => none
      | some (saw, r) => some (true, if saw then r else ls)
    else
      some (false, l :: ls)

/-- `strip_heading_menu`: discard a leading run of heading/menu lines; if a
real (non-blank, non-heading) line exists, return the remainder from just
after the last consumed heading, `"\n".join(...)` then `.strip()`-ed;
otherwise return the empty string. -/
def strip_heading_menu (text : Str) : Str :=
  match menuCore (splitlines text) with
  | none => []
  | some (_, r) => strip (joinNL r)

/-- The inline first-line test of `ensure_first_section_heading`:
`line.strip().rstrip(":").upper()` (note: *all* trailing colons dropped,
unlike `normalize_heading`). -/
def ensureFirstTest (line : Str) : Str :=
  upperA (rstripColons (strip line))

/-- `if i + 1 < len(lines) and not lines[i + 1].strip(): del lines[i + 1]` —
delete one following blank line. -/
def collapseOneBlank : List Str → List Str
  | [] => []
  | x :: xs => if (strip x).isEmpty then xs else x :: xs

/-- Body of `ensure_first_section_heading` on the (already `rstrip`-ed) line
list: `none` when every line is blank, otherwise the updated line list.
Recursion over the leading blank lines replaces the index scan `i` of the
source. -/
def ensureLines (heading : Str) : List Str → Option (List Str)
  | [] => none
  | l :: ls =>
    if (strip l).isEmpty then
      match ensureLines heading ls with
      | none => none
      | some r => some (l :: r)
    else if ensureFirstTest l = heading then
      some (l :: collapseOneBlank ls)
    else
      -- insert the heading before line `i`; the collapse check then looks at
      -- the shifted original line `l`, which is non-blank here
      some (heading :: (if (strip l).isEmpty then ls else l :: ls))

/-- `ensure_first_section_heading(text, heading)`. -/
def ensure_first_section_heading (text : Str) (heading : Str) : Str :=
  match ensureLines heading ((splitlines text).map rstrip) with
  | none => heading ++ txt "\n"
  | some ls => joinNL ls

/-- The `BULLET_SECTIONS` set of `enforce_bullets_in_sections`. -/
def BULLET_SECTIONS : List Str :=
  [txt "SKILLS", txt "PUBLICATIONS", txt "CERTIFICATIONS / HANDS-ON",
   txt "ACHIEVEMENTS", txt "PARTICIPATIONS"]

/-- Does the line start with the bullet marker `"- "`? -/
def startsDashSpace : Str → Bool
  | '-' :: ' ' :: _ => true
  | _ => false

/-- One iteration of the `enforce_bullets_in_sections` loop: takes the
`in_block` flag and the raw line, returns the new flag and the emitted line. -/
def bulletStep (in_block : Bool) (raw : Str) : Bool × Str :=
  let ln := rstrip raw
  let up := normalize_heading ln
  if up ∈ BULLET_SECTIONS then
    (true, up)
  else if in_block ∧ up ∈ HEADINGS then
    (false, up)
  else if in_block then
    let s := strip ln
    if ¬s.isEmpty ∧ ¬startsDashSpace s then (in_block, txt "- " ++ s)
    else (in_block, ln)
  else
    (in_block, ln)

/-- The `enforce_bullets_in_sections` loop over the line list. -/
def bulletGo (in_block : Bool) : List Str → List Str
  | [] => []
  | raw :: rest =>
    let p := bulletStep in_block raw
    p.2 :: bulletGo p.1 rest

/-- `enforce_bullets_in_sections`: force `"- "` bullets onto non-blank lines
inside the list-style sections. -/
def enforce_bullets_in_sections (text : Str) : Str :=
  joinNL (bulletGo false (splitlines text))

/-- Per-line specification of the Bullet Enforcer: blank lines come out as
empty lines, non-blank lines stay non-blank, no newline is introduced, and
every output line is either the normalized form of a known heading, the
right-trimmed input line, or `"- "` plus the trimmed content of a non-blank
non-heading line. -/
def bulletLineRel (raw out : Str) : Prop :=
  ((strip raw).isEmpty = true → out = []) ∧
  ((strip raw).isEmpty = false → (strip out).isEmpty = false) ∧
  ('\n' ∉ raw → '\n' ∉ out) ∧
  ((out = normalize_heading raw ∧ out ∈ HEADINGS) ∨
    out = rstrip raw ∨
    (out = txt "- " ++ strip raw ∧ (strip raw).isEmpty = false ∧
      normalize_heading raw ∉ HEADINGS))

/-- Does a line list end in a non-blank line (or have no lines at all)? -/
def lastNonBlank (ls : List Str) : Bool :=
  match ls.getLast? with
  | some l => !(strip l).isEmpty
  | none => true

/-- Python truthiness of a string: non-empty. -/
def pyTruthy (s : Str) : Bool := !s.isEmpty

/-- Python truthiness of `any(vals)` over a list of strings. -/
def pyAny (vals : List Str) : Bool := vals.any pyTruthy

/-- `join_nonempty(vals, sep)`: join the values that are truthy and remain
truthy after `.strip()`. -/
def join_nonempty (vals : List Str) (sep : Str) : Str :=
  joinSep sep (vals.filter (fun v => pyTruthy v && pyTruthy (strip v)))

/-- One education entry record (`edu_block`). -/
structure EduEntry where
  inst : Str
  degree : Str
  cgpa : Str
  start : Str
  end_ : Str

/-- One experience entry record (`exp_block`). -/
structure ExpEntry where
  company : Str
  role : Str
  start : Str
  end_ : Str
  desc : Str

/-- One project entry record (`proj_block`). -/
structure ProjEntry where
  title : Str
  problem : Str
  approach : Str
  tech : Str
  impact : Str
  link : Str

/-- One publication entry record (`pub_block`). -/
structure PubEntry where
  title : Str
  authors : Str
  venue : Str
  year : Str
  summary : Str
  link : Str

/-- One position-of-responsibility record (`por_block`). -/
structure PorEntry where
  role : Str
  org : Str
  when : Str
  det : Str

/-- `fmt_edu`: "Institute — Degree | CGPA X | Start – End". -/
def fmt_edu (e : EduEntry) : Str :=
  if ¬pyAny [e.inst, e.degree, e.cgpa, e.start, e.end_] then [] else
  let bits1 : List Str :=
    if pyTruthy e.inst ∧ pyTruthy e.degree then [e.inst ++ txt " — " ++ e.degree]
    else if pyTruthy e.inst then [e.inst]
    else if pyTruthy e.degree then [e.degree]
    else []
  let bits2 := if pyTruthy e.cgpa then bits1 ++ [txt "CGPA " ++ e.cgpa] else bits1
  let date_line := join_nonempty [e.start, e.end_] (txt " – ")
  let bits3 := if pyTruthy date_line then bits2 ++ [date_line] else bits2
  joinSep (txt " | ") bits3

/-- `fmt_exp`: "Company — Role | Period" plus a bullet for the deliverables. -/
def fmt_exp (e : ExpEntry) : Str :=
  if ¬pyAny [e.company, e.role, e.start, e.end_, e.desc] then [] else
  let when := join_nonempty [e.start, e.end_] (txt " – ")
  let header := join_nonempty [e.company, e.role] (txt " — ")
  let line1 := if pyTruthy when then header ++ txt " | " ++ when else header
  let out := [line1] ++ (if pyTruthy e.desc then [txt "- " ++ e.desc] else [])
  joinNL out

/-- `fmt_proj`: title plus bullets for Problem/Approach/Tech/Impact/Link. -/
def fmt_proj (p : ProjEntry) : Str :=
  if ¬pyAny [p.title, p.problem, p.approach, p.tech, p.impact, p.link] then [] else
  let lines : List Str :=
    (if pyTruthy p.title then [p.title] else []) ++
    (if pyTruthy p.problem then [txt "- Problem: " ++ p.problem] else []) ++
    (if pyTruthy p.approach then [txt "- Approach: " ++ p.approach] else []) ++
    (if pyTruthy p.tech then [txt "- Tech/Tools: " ++ p.tech] else []) ++
    (if pyTruthy p.impact then [txt "- Impact: " ++ p.impact] else []) ++
    (if pyTruthy p.link then [txt "- Link: " ++ p.link] else [])
  joinNL lines

/-- `fmt_pub`: title plus bullets for Authors/Venue-Year/Summary/Link. -/
def fmt_pub (p : PubEntry) : Str :=
  if ¬pyAny [p.title, p.authors, p.venue, p.year, p.summary, p.link] then [] else
  let parts : List Str :=
    (if pyTruthy p.title then [p.title] else []) ++
    (if pyTruthy p.authors then [txt "- Authors: " ++ p.authors] else []) ++
    (if pyTruthy p.venue ∨ pyTruthy p.year then
      [txt "- Venue/Year: " ++ join_nonempty [p.venue, p.year] (txt ", ")] else []) ++
    (if pyTruthy p.summary then [txt "- Summary: " ++ p.summary] else []) ++
    (if pyTruthy p.link then [txt "- Link: " ++ p.link] else [])
  joinNL parts

/-- `fmt_por`: "Role | Organization | Period" plus a bullet for the details. -/
def fmt_por (p : PorEntry) : Str :=
  if ¬pyAny [p.role, p.org, p.when, p.det] then [] else
  let head := join_nonempty [p.role, p.org, p.when] (txt " | ")
  let lines := [head] ++ (if pyTruthy p.det then [txt "- " ++ p.det] else [])
  joinNL lines

/-- Python-3.7 dict assignment `d[k] = v` on an insertion-ordered
association list: replace in place if the key exists, else append. -/
def dictInsert : List (Str × Str) → Str → Str → List (Str × Str)
  | [], k, v => [(k, v)]
  | (k', v') :: rest, k, v =>
    if k' = k then (k, v) :: rest else (k', v') :: dictInsert rest k v

/-- Header skip of `extract_section_blocks`: count the leading non-blank
non-heading lines, capped at 4. -/
def headerSkip (lines : List Str) : Nat :=
  min ((lines.takeWhile
    (fun l => pyTruthy (strip l) && decide (normalize_heading l ∉ HEADINGS))).length) 4

/-- Scan loop of `extract_section_blocks`: accumulate `(blocks, order)` with
the current heading `cur` and line buffer `buf`.  On a heading line the
pending buffer is flushed into `blocks` under `cur` and cleared — but only
when `cur` is truthy (`if cur:` — Python's `None` and the empty string are
falsy), otherwise the buffer is *not* cleared; the final flush at end of
input follows the same truthiness test. -/
def scanBlocks : List Str → Option Str → List Str → List (Str × Str) → List Str →
    List (Str × Str) × List Str
  | [], cur, buf, blocks, order =>
    (match cur with
     | some c => if pyTruthy c then dictInsert blocks c (strip (joinNL buf)) else blocks
     | none => blocks,
     order)
  | ln :: rest, cur, buf, blocks, order =>
    if normalize_heading ln ∈ HEADINGS then
      match cur with
      | some c =>
        if pyTruthy c then
          scanBlocks rest (some (normalize_heading ln)) []
            (dictInsert blocks c (strip (joinNL buf))) (order ++ [normalize_heading ln])
        else
          scanBlocks rest (some (normalize_heading ln)) buf blocks
            (order ++ [normalize_heading ln])
      | none =>
        scanBlocks rest (some (normalize_heading ln)) buf blocks
          (order ++ [normalize_heading ln])
    else
      scanBlocks rest cur (buf ++ [ln]) blocks order

/-- `extract_section_blocks`: skip up to four header lines, then split the
remaining text into `{SECTION: body}` blocks plus the heading order list. -/
def extract_section_blocks (full_text : Str) : List (Str × Str) × List Str :=
  let lines := splitlines full_text
  let i := headerSkip lines
  let body := joinNL (lines.drop i)
  scanBlocks (splitlines body) none [] [] []

/-- Serialization of a section document: every section contributes its
heading line followed by its body lines (the round-trip encoder described by
the spec's "final text ... serialized as `HEADING\nbody...` blocks"). -/
def serializeSections (secs : List (Str × List Str)) : Str :=
  joinNL (secs.map (fun s => s.1 :: s.2)).flatten

/-- Scoring mode of `ats_score`. -/
inductive ScoreMode
  | ATS
  | SYNTH
  | QUALITY
deriving DecidableEq

/-- Mode selection of `ats_score`: a real job description gives ATS, else a
target role gives SYNTH, else QUALITY. -/
def atsMode (jd target_role : Str) : ScoreMode :=
  if pyTruthy (strip jd) then .ATS
  else if pyTruthy (strip target_role) then .SYNTH
  else .QUALITY

/-- `ats_score`.  The external model call, the regex/JSON extraction and the
`int(...)` conversion — everything inside the `try` block up to the clamp —
are modelled as one abstract fallible input `parsed`: `ok (score, reasons)`
when the pipeline produced an integer score and a list of reason strings,
`error` when any exception was raised.  The clamp `max(0, min(100, score))`,
the truncation `[:4]` and the silent `(None, [], mode)` fallback follow the
source. -/
def ats_score (jd target_role : Str) (parsed : Except Unit (Int × List Str)) :
    Option Int × List Str × ScoreMode :=
  let mode := atsMode jd target_role
  match parsed with
  | .error _ => (none, [], mode)
  | .ok (s, rs) => (some (max 0 (min 100 s)), rs.take 4, mode)

/-! ### Lemmas about the string primitives -/

theorem dropWhile_idem (p : Char → Bool) (l : Str) :
    List.dropWhile p (List.dropWhile p l) = List.dropWhile p l := by
  induction l with
  | nil => rfl
  | cons c t ih =>
    by_cases h : p c
    · simp [List.dropWhile_cons, h, ih]
    · simp [List.dropWhile_cons, h]

theorem rstrip_idem (s : Str) : rstrip (rstrip s) = rstrip s := by
  simp [rstrip, dropWhile_idem]

theorem lstrip_idem (s : Str) : lstrip (lstrip s) = lstrip s := by
  simp [lstrip, dropWhile_idem]

theorem strip_rstrip (s : Str) : strip (rstrip s) = strip s := by
  simp [strip, rstrip_idem]

theorem dropWhile_append_of_eq_nil {p : Char → Bool} {l₁ : Str} (l₂ : Str)
    (h : List.dropWhile p l₁ = []) :
    List.dropWhile p (l₁ ++ l₂) = List.dropWhile p l₂ := by
  induction l₁ with
  | nil => rfl
  | cons c t ih =>
    by_cases hc : p c
    · simp only [List.dropWhile_cons, hc, if_true] at h ⊢
      simp only [List.cons_append, List.dropWhile_cons, hc, if_true]
      exact ih h
    · simp [List.dropWhile_cons, hc] at h

theorem dropWhile_append_of_ne_nil {p : Char → Bool} {l₁ : Str} (l₂ : Str)
    (h : List.dropWhile p l₁ ≠ []) :
    List.dropWhile p (l₁ ++ l₂) = List.dropWhile p l₁ ++ l₂ := by
  induction l₁ with
  | nil => simp at h
  | cons c t ih =>
    by_cases hc : p c
    · simp only [List.dropWhile_cons, hc, if_true] at h ⊢
      simp only [List.cons_append, List.dropWhile_cons, hc, if_true]
      exact ih h
    · simp [List.cons_append, List.dropWhile_cons, hc]

theorem rstrip_cons (c : Char) (t : Str) :
    rstrip (c :: t) =
      if rstrip t = [] then (if pyIsSpace c then [] else [c]) else c :: rstrip t := by
  unfold rstrip
  by_cases h : List.dropWhile pyIsSpace t.reverse = []
  · rw [List.reverse_cons, dropWhile_append_of_eq_nil _ h]
    by_cases hc : pyIsSpace c <;> simp [List.dropWhile_cons, hc, h]
  · rw [List.reverse_cons, dropWhile_append_of_ne_nil _ h]
    have : (List.dropWhile pyIsSpace t.reverse).reverse ≠ [] := by
      simpa using h
    simp [this]

theorem rstrip_eq_nil_iff (s : Str) : rstrip s = [] ↔ ∀ c ∈ s, pyIsSpace c := by
  unfold rstrip
  rw [List.reverse_eq_nil_iff, List.dropWhile_eq_nil_iff]
  simp

theorem lstrip_eq_nil_iff (s : Str) : lstrip s = [] ↔ ∀ c ∈ s, pyIsSpace c := by
  unfold lstrip
  rw [List.dropWhile_eq_nil_iff]

theorem mem_rstrip {c : Char} {s : Str} (h : c ∈ rstrip s) : c ∈ s := by
  unfold rstrip at h
  rw [List.mem_reverse] at h
  have := (List.dropWhile_sublist (l := s.reverse) (p := pyIsSpace)).subset h
  simpa using this

theorem mem_lstrip {c : Char} {s : Str} (h : c ∈ lstrip s) : c ∈ s :=
  (List.dropWhile_sublist (l := s) (p := pyIsSpace)).subset h

theorem mem_strip {c : Char} {s : Str} (h : c ∈ strip s) : c ∈ s :=
  mem_rstrip (mem_lstrip h)

theorem strip_eq_nil_of_rstrip (s : Str) (h : rstrip s = []) : strip s = [] := by
  simp [strip, h, lstrip]

theorem rstrip_eq_nil_of_strip (s : Str) (h : strip s = []) : rstrip s = [] := by
  rw [rstrip_eq_nil_iff]
  intro c hc
  unfold strip at h
  rw [lstrip_eq_nil_iff] at h
  by_cases hr : rstrip s = []
  · rw [rstrip_eq_nil_iff] at hr
    exact hr c hc
  · -- rstrip s ≠ [] but every char of it is whitespace forces rstrip (rstrip s) = []
    exfalso
    have hall : ∀ c ∈ rstrip s, pyIsSpace c := h
    have : rstrip (rstrip s) = [] := (rstrip_eq_nil_iff _).mpr hall
    rw [rstrip_idem] at this
    exact hr this

theorem lstrip_rstrip_comm (s : Str) : lstrip (rstrip s) = rstrip (lstrip s) := by
  induction s with
  | nil => rfl
  | cons c t ih =>
    rw [rstrip_cons]
    by_cases h : rstrip t = []
    · rw [if_pos h]
      by_cases hc : pyIsSpace c
      · rw [if_pos hc]
        have ht : strip t = [] := strip_eq_nil_of_rstrip t h
        have hlt : ∀ x ∈ t, pyIsSpace x := (rstrip_eq_nil_iff t).mp h
        have : lstrip (c :: t) = lstrip t := by simp [lstrip, List.dropWhile_cons, hc]
        rw [this]
        have : lstrip t = [] := (lstrip_eq_nil_iff t).mpr hlt
        rw [this]
        simp [lstrip, rstrip]
      · rw [if_neg hc]
        have h1 : lstrip ([c] : Str) = [c] := by simp [lstrip, List.dropWhile_cons, hc]
        have h2 : lstrip (c :: t) = c :: t := by simp [lstrip, List.dropWhile_cons, hc]
        rw [h1, h2, rstrip_cons, h, if_pos rfl, if_neg hc]
    · rw [if_neg h]
      by_cases hc : pyIsSpace c
      · have h1 : lstrip (c :: rstrip t) = lstrip (rstrip t) := by
          simp [lstrip, List.dropWhile_cons, hc]
        have h2 : lstrip (c :: t) = lstrip t := by simp [lstrip, List.dropWhile_cons, hc]
        rw [h1, h2, ih]
      · have h1 : lstrip (c :: rstrip t) = c :: rstrip t := by
          simp [lstrip, List.dropWhile_cons, hc]
        have h2 : lstrip (c :: t) = c :: t := by simp [lstrip, List.dropWhile_cons, hc]
        rw [h1, h2, rstrip_cons, if_neg h]

theorem lstrip_strip (s : Str) : lstrip (strip s) = strip s := by
  simp [strip, lstrip_idem]

theorem rstrip_strip (s : Str) : rstrip (strip s) = strip s := by
  unfold strip
  rw [← lstrip_rstrip_comm (rstrip s), rstrip_idem]

theorem strip_strip (s : Str) : strip (strip s) = strip s := by
  conv_lhs => rw [strip]
  rw [rstrip_strip, lstrip_strip]

theorem strip_lstrip (s : Str) : strip (lstrip s) = strip s := by
  unfold strip
  rw [← lstrip_rstrip_comm, lstrip_idem, lstrip_rstrip_comm]

theorem normalize_rstrip (l : Str) :
    normalize_heading (rstrip l) = normalize_heading l := by
  unfold normalize_heading
  rw [strip_rstrip]

theorem lstrip_cons_of_not {c : Char} (t : Str) (h : ¬pyIsSpace c) :
    lstrip (c :: t) = c :: t := by
  simp [lstrip, List.dropWhile_cons, h]

theorem rstrip_append_of_ne_nil (a : Str) {t : Str} (h : rstrip t ≠ []) :
    rstrip (a ++ t) = a ++ rstrip t := by
  unfold rstrip at h ⊢
  rw [List.reverse_append, dropWhile_append_of_ne_nil]
  · simp
  · intro hc
    rw [hc] at h
    simp at h

/-! ### Lemmas about lines, `splitlines` and `joinNL` -/

theorem joinNL_cons (l : Str) {ls : List Str} (h : ls ≠ []) :
    joinNL (l :: ls) = l ++ '\n' :: joinNL ls := by
  match ls with
  | [] => exact absurd rfl h
  | l' :: ls' => simp [joinNL, joinSep, txt]

theorem splitlines_no_nl (s : Str) : ∀ l ∈ splitlines s, '\n' ∉ l := by
  induction s with
  | nil => simp [splitlines]
  | cons c t ih =>
    by_cases hc : c = '\n'
    · subst hc
      simp only [splitlines, if_pos rfl]
      intro l hl
      rcases List.mem_cons.mp hl with h | h
      · subst h; simp
      · exact ih l h
    · simp only [splitlines, if_neg hc]
      intro l hl
      match hst : splitlines t with
      | [] =>
        rw [hst] at hl
        simp only [consHead] at hl
        rcases List.mem_singleton.mp hl with rfl
        simp [hc]
        exact fun h => hc h.symm
      | l₀ :: ls₀ =>
        rw [hst] at hl
        simp only [consHead] at hl
        rcases List.mem_cons.mp hl with h | h
        · subst h
          intro hmem
          rcases List.mem_cons.mp hmem with h | h
          · exact hc h.symm
          · exact ih l₀ (hst ▸ List.mem_cons_self _ _) h
        · exact ih l (hst ▸ List.mem_cons_of_mem _ h)

theorem splitlines_single {l : Str} (hne : l ≠ []) (hnl : '\n' ∉ l) :
    splitlines l = [l] := by
  induction l with
  | nil => exact absurd rfl hne
  | cons c t ih =>
    have hc : c ≠ '\n' := fun h => hnl (h ▸ List.mem_cons_self _ _)
    simp only [splitlines, if_neg hc]
    by_cases ht : t = []
    · subst ht; rfl
    · have hnt : '\n' ∉ t := fun h => hnl (List.mem_cons_of_mem _ h)
      rw [ih ht hnt]
      rfl

theorem splitlines_append_nl {l : Str} (t : Str) (hnl : '\n' ∉ l) :
    splitlines (l ++ '\n' :: t) = l :: splitlines t := by
  induction l with
  | nil => simp [splitlines]
  | cons c l' ih =>
    have hc : c ≠ '\n' := fun h => hnl (h ▸ List.mem_cons_self _ _)
    have hnl' : '\n' ∉ l' := fun h => hnl (List.mem_cons_of_mem _ h)
    simp only [List.cons_append, splitlines, if_neg hc]
    rw [show l'.append ('\n' :: t) = l' ++ '\n' :: t from rfl, ih hnl']
    rfl

theorem splitlines_joinNL {ls : List Str} (h : ∀ l ∈ ls, '\n' ∉ l) :
    splitlines (joinNL ls) =
      if ls.getLast? = some [] then ls.dropLast else ls := by
  induction ls with
  | nil => simp [joinNL, joinSep, splitlines]
  | cons l ls' ih =>
    match ls' with
    | [] =>
      by_cases hl : l = []
      · subst hl; simp [joinNL, joinSep, splitlines]
      · rw [show joinNL [l] = l from rfl, splitlines_single hl (h l (by simp))]
        simp [List.getLast?_singleton, hl]
    | l' :: ls'' =>
      rw [joinNL_cons l (by simp),
        splitlines_append_nl _ (h l (by simp)),
        ih (fun x hx => h x (List.mem_cons_of_mem _ hx))]
      have hgl : (l :: l' :: ls'').getLast? = (l' :: ls'').getLast? := by
        simp [List.getLast?_cons_cons]
      rw [hgl]
      by_cases hlast : (l' :: ls'').getLast? = some ([] : Str)
      · rw [if_pos hlast, if_pos hlast]
        rfl
      · rw [if_neg hlast, if_neg hlast]

theorem strip_ws_append {w : Str} (t : Str) (hw : ∀ c ∈ w, pyIsSpace c) :
    strip (w ++ t) = strip t := by
  unfold strip
  rw [lstrip_rstrip_comm, lstrip_rstrip_comm]
  congr 1
  induction w with
  | nil => rfl
  | cons c w' ih =>
    have hc : pyIsSpace c := hw c (by simp)
    have : lstrip ((c :: w') ++ t) = lstrip (w' ++ t) := by
      simp [lstrip, List.dropWhile_cons, hc]
    rw [this, ih (fun x hx => hw x (List.mem_cons_of_mem _ hx))]

/-- A string fixed by `strip` is fixed by `rstrip` and `lstrip` separately. -/
theorem rstrip_eq_self_of_strip {s : Str} (h : strip s = s) : rstrip s = s := by
  have h1 : (strip s).length ≤ (rstrip s).length := by
    unfold strip
    exact (List.dropWhile_sublist (p := pyIsSpace)).length_le
  have h2 : (rstrip s).length ≤ s.length := by
    unfold rstrip
    have := (List.dropWhile_sublist (l := s.reverse) (p := pyIsSpace)).length_le
    simpa using this
  have hsub : (rstrip s).Sublist s := by
    unfold rstrip
    have := List.dropWhile_sublist (l := s.reverse) (p := pyIsSpace)
    have := this.reverse
    simpa using this
  have : (rstrip s).length = s.length := by
    rw [h] at h1
    omega
  exact hsub.eq_of_length this

theorem rstrip_concat_ws {c : Char} (y : Str) (hc : pyIsSpace c) :
    rstrip (y ++ [c]) = rstrip y := by
  unfold rstrip
  rw [List.reverse_append]
  simp [List.dropWhile_cons, hc]

/-- A nonempty string fixed by `strip` does not end in whitespace. -/
theorem getLast_not_ws_of_strip {s : Str} (hne : s ≠ []) (h : strip s = s)
    {c : Char} (hlast : s.getLast? = some c) : ¬pyIsSpace c := by
  intro hws
  obtain ⟨y, rfl⟩ : ∃ y, s = y ++ [c] := by
    obtain ⟨y, hy⟩ := List.getLast?_eq_some_iff.mp hlast
    exact ⟨y, hy⟩
  have hr : rstrip (y ++ [c]) = y ++ [c] := rstrip_eq_self_of_strip h
  rw [rstrip_concat_ws y hws] at hr
  have h1 : (rstrip y).length ≤ y.length := by
    unfold rstrip
    have := (List.dropWhile_sublist (l := y.reverse) (p := pyIsSpace)).length_le
    simpa using this
  have h2 : (y ++ [c]).length = y.length + 1 := by simp
  rw [hr] at h1
  omega

/-! ### Concrete facts about the heading sets -/

theorem headings_fixed : ∀ h ∈ HEADINGS,
    rstrip h = h ∧ strip h = h ∧ normalize_heading h = h ∧ h ≠ [] ∧
    ¬(strip h).isEmpty = true ∧ '\n' ∉ h ∧ h.head? ≠ some '-' := by
  decide

theorem bullet_sub : ∀ h ∈ BULLET_SECTIONS, h ∈ HEADINGS := by
  decide

theorem nil_not_heading : ([] : Str) ∉ HEADINGS := by
  decide

theorem head_dash_not_heading {l : Str} (h : l.head? = some '-') :
    l ∉ HEADINGS := by
  intro hmem
  exact absurd h (headings_fixed l hmem).2.2.2.2.2.2

/-! ### The First-Heading-Ensurer (claim C1) -/

theorem find?_dropLast {α : Type} (p : α → Bool) (l : List α) (a : α)
    (hl : l.getLast? = some a) (hp : p a = false) :
    List.find? p l.dropLast = List.find? p l := by
  induction l with
  | nil => simp at hl
  | cons x t ih =>
    match t with
    | [] =>
      simp only [List.getLast?_singleton, Option.some_inj] at hl
      subst hl
      simp [List.find?, hp]
    | y :: t' =>
      rw [List.getLast?_cons_cons] at hl
      have hih := ih hl
      show List.find? p (x :: (y :: t').dropLast) = List.find? p (x :: y :: t')
      by_cases hx : p x
      · simp [List.find?, hx]
      · simp only [List.find?, hx]
        exact hih

theorem collapseOneBlank_subset (ls : List Str) (l : Str)
    (h : l ∈ collapseOneBlank ls) : l ∈ ls := by
  match ls with
  | [] => exact absurd h (by simp [collapseOneBlank])
  | x :: xs =>
    simp only [collapseOneBlank] at h
    split at h
    · exact List.mem_cons_of_mem _ h
    · exact h

theorem ensureLines_mem (H : Str) :
    ∀ lines r, ensureLines H lines = some r → ∀ l ∈ r, l ∈ lines ∨ l = H := by
  intro lines
  induction lines with
  | nil => intro r h; simp [ensureLines] at h
  | cons x xs ih =>
    intro r h l hl
    unfold ensureLines at h
    by_cases hb : (strip x).isEmpty = true
    · rw [if_pos hb] at h
      cases hrec : ensureLines H xs with
      | none => rw [hrec] at h; exact absurd h (by simp)
      | some r' =>
        rw [hrec] at h
        injection h with h; subst h
        rcases List.mem_cons.mp hl with rfl | hl'
        · exact Or.inl (List.mem_cons_self _ _)
        · rcases ih r' hrec l hl' with h | h
          · exact Or.inl (List.mem_cons_of_mem _ h)
          · exact Or.inr h
    · rw [if_neg hb] at h
      by_cases ht : ensureFirstTest x = H
      · rw [if_pos ht] at h
        injection h with h; subst h
        rcases List.mem_cons.mp hl with rfl | hl'
        · exact Or.inl (List.mem_cons_self _ _)
        · exact Or.inl (List.mem_cons_of_mem _ (collapseOneBlank_subset xs l hl'))
      · rw [if_neg ht] at h
        injection h with h; subst h
        rcases List.mem_cons.mp hl with rfl | hl'
        · exact Or.inr rfl
        · rw [if_neg hb] at hl'
          rcases List.mem_cons.mp hl' with rfl | hmem
          · exact Or.inl (List.mem_cons_self _ _)
          · exact Or.inl (List.mem_cons_of_mem _ hmem)

theorem ensureLines_find (H : Str) (hH1 : ensureFirstTest H = H)
    (hH2 : pyTruthy (strip H) = true) :
    ∀ lines r, ensureLines H lines = some r →
      ∃ L, List.find? (fun l => pyTruthy (strip l)) r = some L ∧
        ensureFirstTest L = H := by
  intro lines
  induction lines with
  | nil => intro r h; simp [ensureLines] at h
  | cons x xs ih =>
    intro r h
    unfold ensureLines at h
    by_cases hb : (strip x).isEmpty = true
    · rw [if_pos hb] at h
      cases hrec : ensureLines H xs with
      | none => rw [hrec] at h; exact absurd h (by simp)
      | some r' =>
        rw [hrec] at h
        injection h with h; subst h
        obtain ⟨L, hf, hL⟩ := ih r' hrec
        refine ⟨L, ?_, hL⟩
        have hpx : pyTruthy (strip x) = false := by
          simp [pyTruthy, hb]
        rw [List.find?_cons_of_neg _ (by simp [hpx]), hf]
    · rw [if_neg hb] at h
      have hpx : pyTruthy (strip x) = true := by
        simp only [pyTruthy, Bool.not_eq_true'] at *
        simp [Bool.not_eq_true] at hb ⊢
        exact hb
      by_cases ht : ensureFirstTest x = H
      · rw [if_pos ht] at h
        injection h with h; subst h
        exact ⟨x, List.find?_cons_of_pos _ (by simp [hpx]), ht⟩
      · rw [if_neg ht] at h
        injection h with h; subst h
        exact ⟨H, List.find?_cons_of_pos _ (by simp [hH2]), hH1⟩

/-- C1 (amended): for every input text, the first non-blank line of the output
of `ensure_first_section_heading` with the mandated heading
"PROFESSIONAL OVERVIEW" exists and equals the mandated heading up to the
ensurer's own normalization (trim whitespace, drop all trailing colons,
uppercase); in particular a mandated heading line is present exactly at the
first non-blank position. -/
theorem ensure_first_heading_normalizes (t : Str) :
    ∃ L, List.find? (fun l => pyTruthy (strip l))
        (splitlines (ensure_first_section_heading t (txt "PROFESSIONAL OVERVIEW")))
        = some L ∧
      ensureFirstTest L = txt "PROFESSIONAL OVERVIEW" := by
  unfold ensure_first_section_heading
  cases hE : ensureLines (txt "PROFESSIONAL OVERVIEW") ((splitlines t).map rstrip) with
  | none =>
    exact ⟨txt "PROFESSIONAL OVERVIEW", by decide, by decide⟩
  | some ls =>
    have hmem := ensureLines_mem (txt "PROFESSIONAL OVERVIEW") _ _ hE
    have hnl : ∀ l ∈ ls, '\n' ∉ l := by
      intro l hl
      rcases hmem l hl with h | rfl
      · obtain ⟨l₀, hl₀, rfl⟩ := List.mem_map.mp h
        intro hc
        exact splitlines_no_nl t l₀ hl₀ (mem_rstrip hc)
      · decide
    show ∃ L, List.find? (fun l => pyTruthy (strip l)) (splitlines (joinNL ls))
        = some L ∧ ensureFirstTest L = txt "PROFESSIONAL OVERVIEW"
    rw [splitlines_joinNL hnl]
    obtain ⟨L, hfind, hL⟩ := ensureLines_find _ (by decide) (by decide) _ _ hE
    by_cases hlast : ls.getLast? = some ([] : Str)
    · rw [if_pos hlast]
      refine ⟨L, ?_, hL⟩
      rw [find?_dropLast _ _ _ hlast (by decide)]
      exact hfind
    · rw [if_neg hlast]
      exact ⟨L, hfind, hL⟩

/-- C1 (counterexample to the claim as stated): on input
`"professional overview\nx"` the output of the First-Heading-Ensurer is the
input itself, whose first non-blank line `"professional overview"` is *not*
the mandated heading string. -/
theorem ensure_first_heading_literal_cex :
    ensure_first_section_heading (txt "professional overview\nx")
        (txt "PROFESSIONAL OVERVIEW") = txt "professional overview\nx" ∧
    List.find? (fun l => pyTruthy (strip l))
        (splitlines (ensure_first_section_heading (txt "professional overview\nx")
          (txt "PROFESSIONAL OVERVIEW")))
      ≠ some (txt "PROFESSIONAL OVERVIEW") := by
  constructor
  · decide
  · decide

/-! ### Agreement of the heading tests (claim C2) -/

theorem rstripColons_eq_dropOneColon {s : Str} (h : endsTwoColons s = false) :
    rstripColons s = dropOneColon s := by
  match hrev : s.reverse with
  | [] =>
    have hs : s = [] := by
      have := congrArg List.reverse hrev
      simpa using this
    subst hs
    rfl
  | c :: rest =>
    have hs : s = rest.reverse ++ [c] := by
      have := congrArg List.reverse hrev
      simpa using this
    by_cases hc : c = ':'
    · subst hc
      match rest with
      | [] =>
        rw [hs]
        decide
      | r :: rest' =>
        have hr : r ≠ ':' := by
          intro hr
          subst hr
          rw [endsTwoColons, hrev] at h
          simp at h
        have hdrop : List.dropWhile (fun c => c = ':') (':' :: r :: rest')
            = r :: rest' := by
          simp [List.dropWhile_cons, hr]
        have h1 : rstripColons s = (r :: rest').reverse := by
          rw [rstripColons, hrev, hdrop]
        have h2 : lastIs s ':' = true := by
          rw [lastIs, hrev]
          simp
        have h3 : dropOneColon s = (r :: rest').reverse := by
          rw [dropOneColon, if_pos h2, hs, List.dropLast_concat]
        rw [h1, h3]
    · have hdrop : List.dropWhile (fun c => c = ':') (c :: rest) = c :: rest := by
        simp [List.dropWhile_cons, hc]
      have h1 : rstripColons s = s := by
        rw [rstripColons, hrev, hdrop, ← hrev, List.reverse_reverse]
      have h2 : lastIs s ':' = false := by
        rw [lastIs, hrev]
        simpa using hc
      rw [h1, dropOneColon, if_neg (by simp [h2])]

/-- C2 (amended): the Bullet Enforcer's inline classification (applied to the
right-trimmed line) agrees exactly with the `normalize_heading`-based test on
every line; the First-Heading-Ensurer's inline test agrees with it on every
line whose trimmed form does not end in two or more colons (it strips *all*
trailing colons where `normalize_heading` strips at most one). -/
theorem heading_test_agreement (line : Str) :
    normalize_heading (rstrip line) = normalize_heading line ∧
    (endsTwoColons (strip line) = false →
      ensureFirstTest line = normalize_heading line) := by
  constructor
  · exact normalize_rstrip line
  · intro h
    unfold ensureFirstTest normalize_heading
    rw [rstripColons_eq_dropOneColon h]

/-- C2 (counterexample to the claim as stated): the line
`"PROFESSIONAL OVERVIEW::"` is accepted as the mandated heading by the
First-Heading-Ensurer's inline test (so the ensurer inserts nothing), yet the
`normalize_heading`-based membership test classifies it as *not* a heading. -/
theorem heading_test_agreement_cex :
    ensureFirstTest (txt "PROFESSIONAL OVERVIEW::") = txt "PROFESSIONAL OVERVIEW" ∧
    normalize_heading (txt "PROFESSIONAL OVERVIEW::") ∉ HEADINGS ∧
    normalize_heading (txt "PROFESSIONAL OVERVIEW::") ≠ txt "PROFESSIONAL OVERVIEW" ∧
    ensure_first_section_heading (txt "PROFESSIONAL OVERVIEW::\nx")
        (txt "PROFESSIONAL OVERVIEW")
      = txt "PROFESSIONAL OVERVIEW::\nx" := by
  refine ⟨by decide, by decide, by decide, by decide⟩

/-- C2 witness: the two heading tests agree on the concrete line `"Skills:"`. -/
theorem heading_test_agreement_witness :
    endsTwoColons (strip (txt "Skills:")) = false ∧
    ensureFirstTest (txt "Skills:") = normalize_heading (txt "Skills:") :=
  ⟨by decide, (heading_test_agreement (txt "Skills:")).2 (by decide)⟩

/-! ### The Menu-Strip Pass (claim C3) -/

theorem strip_eq_nil_iff (s : Str) : strip s = [] ↔ ∀ c ∈ s, pyIsSpace c := by
  constructor
  · intro h
    exact (rstrip_eq_nil_iff s).mp (rstrip_eq_nil_of_strip s h)
  · intro h
    exact strip_eq_nil_of_rstrip s ((rstrip_eq_nil_iff s).mpr h)

theorem menuCore_none {lines : List Str}
    (h : ∀ l ∈ lines, strip l = [] ∨ normalize_heading l ∈ HEADINGS) :
    menuCore lines = none := by
  induction lines with
  | nil => rfl
  | cons l ls ih =>
    have hrec : menuCore ls = none :=
      ih (fun x hx => h x (List.mem_cons_of_mem _ hx))
    unfold menuCore
    by_cases hb : (strip l).isEmpty = true
    · rw [if_pos hb, hrec]
    · have hh : normalize_heading l ∈ HEADINGS := by
        rcases h l (List.mem_cons_self _ _) with h' | h'
        · exact absurd (by simp [h']) hb
        · exact h'
      rw [if_neg hb, if_pos hh, hrec]

theorem menuCore_break :
    ∀ (pre : List Str) (x : Str) (rest : List Str),
      (∀ l ∈ pre, strip l = [] ∨ normalize_heading l ∈ HEADINGS) →
      strip x ≠ [] → normalize_heading x ∉ HEADINGS →
      ∃ saw blanks, menuCore (pre ++ x :: rest) = some (saw, blanks ++ x :: rest) ∧
        (∀ l ∈ blanks, strip l = []) ∧ (saw = false → blanks = pre) := by
  intro pre
  induction pre with
  | nil =>
    intro x rest _ hx hh
    refine ⟨false, [], ?_, by simp, fun _ => rfl⟩
    simp only [List.nil_append]
    unfold menuCore
    rw [if_neg (by simp [hx]), if_neg hh]
  | cons l pre' ih =>
    intro x rest hpre hx hh
    obtain ⟨saw, blanks, hrec, hbl, hfb⟩ :=
      ih x rest (fun y hy => hpre y (List.mem_cons_of_mem _ hy)) hx hh
    by_cases hb : (strip l).isEmpty = true
    · rw [show (l :: pre') ++ x :: rest = l :: (pre' ++ x :: rest) from rfl]
      unfold menuCore
      rw [if_pos hb, hrec]
      cases saw with
      | true => exact ⟨true, blanks, rfl, hbl, by simp⟩
      | false =>
        refine ⟨false, l :: blanks, rfl, ?_, ?_⟩
        · intro y hy
          rcases List.mem_cons.mp hy with rfl | hy'
          · simpa using hb
          · exact hbl y hy'
        · intro _
          rw [hfb rfl]
    · have hhl : normalize_heading l ∈ HEADINGS := by
        rcases hpre l (List.mem_cons_self _ _) with h' | h'
        · exact absurd (by simp [h']) hb
        · exact h'
      rw [show (l :: pre') ++ x :: rest = l :: (pre' ++ x :: rest) from rfl]
      unfold menuCore
      rw [if_neg hb, if_pos hhl, hrec]
      cases saw with
      | true => exact ⟨true, blanks, rfl, hbl, by simp⟩
      | false =>
        refine ⟨true, blanks, ?_, hbl, by simp⟩
        rw [hfb rfl]
        simp

theorem strip_joinNL_blanks {blanks : List Str} (tail : List Str)
    (h : ∀ l ∈ blanks, strip l = []) :
    strip (joinNL (blanks ++ tail)) = strip (joinNL tail) := by
  induction blanks with
  | nil => rfl
  | cons b blanks' ih =>
    have hb : ∀ c ∈ b, pyIsSpace c :=
      (strip_eq_nil_iff b).mp (h b (List.mem_cons_self _ _))
    have ih' := ih (fun y hy => h y (List.mem_cons_of_mem _ hy))
    match hbt : blanks' ++ tail with
    | [] =>
      obtain ⟨hb', ht⟩ := List.append_eq_nil.mp hbt
      subst hb'
      subst ht
      show strip (joinNL ([b] ++ [])) = strip (joinNL [])
      rw [List.append_nil]
      rw [show joinNL [b] = b from rfl, show joinNL [] = [] from rfl]
      exact (strip_eq_nil_iff b).mpr hb
    | y :: ys =>
      rw [show (b :: blanks') ++ tail = b :: (blanks' ++ tail) from rfl,
        joinNL_cons b (by rw [hbt]; simp), List.append_cons b '\n',
        show b ++ ['\n'] = b ++ ['\n'] from rfl]
      rw [strip_ws_append _ (by
        intro c hc
        rcases List.mem_append.mp hc with h' | h'
        · exact hb c h'
        · rcases List.mem_singleton.mp h' with rfl
          decide)]
      rw [← hbt] at *
      exact ih'

/-- C3 (amended): on text whose non-blank lines all normalize to known
headings (including empty text) the Menu-Strip Pass returns the empty string;
on text containing a non-blank line that is not a known heading, it returns
that first such line and everything after it, except that the retained block
is `.strip()`-ed: leading whitespace of that line and trailing whitespace at
end-of-text are removed, the interior is unchanged. -/
theorem strip_heading_menu_amended (t : Str) :
    ((∀ l ∈ splitlines t, strip l = [] ∨ normalize_heading l ∈ HEADINGS) →
      strip_heading_menu t = []) ∧
    (∀ pre x rest, splitlines t = pre ++ x :: rest →
      (∀ l ∈ pre, strip l = [] ∨ normalize_heading l ∈ HEADINGS) →
      strip x ≠ [] → normalize_heading x ∉ HEADINGS →
      strip_heading_menu t = strip (joinNL (x :: rest))) := by
  constructor
  · intro h
    unfold strip_heading_menu
    rw [menuCore_none h]
  · intro pre x rest hsplit hpre hx hh
    obtain ⟨saw, blanks, hcore, hbl, _⟩ := menuCore_break pre x rest hpre hx hh
    unfold strip_heading_menu
    rw [hsplit, hcore]
    exact strip_joinNL_blanks (x :: rest) hbl

/-- C3 (counterexample to the claim as stated): the input `" x"` consists of
the single non-heading line `" x"`, but the Menu-Strip Pass returns `"x"`,
not that line unchanged. -/
theorem strip_heading_menu_cex :
    strip_heading_menu (txt " x") = txt "x" ∧ txt "x" ≠ txt " x" := by
  refine ⟨by decide, by decide⟩

/-- C3 witness: the amended theorem applied to concrete menu-only and
menu-plus-content inputs. -/
theorem strip_heading_menu_witness :
    strip_heading_menu (txt "EDUCATION\nSKILLS") = [] ∧
    strip_heading_menu (txt "EDUCATION\nhi\nmore")
      = strip (joinNL [txt "hi", txt "more"]) :=
  ⟨(strip_heading_menu_amended (txt "EDUCATION\nSKILLS")).1 (by decide),
   (strip_heading_menu_amended (txt "EDUCATION\nhi\nmore")).2
     [txt "EDUCATION"] (txt "hi") [txt "more"] (by decide) (by decide)
     (by decide) (by decide)⟩

/-! ### Field formatters (claims C4, C8) -/

/-- C4 (amended): every field formatter returns exactly the empty string when
every field of the record is the *empty* string (the guard `any(e.values())`
tests Python truthiness, so only genuinely empty fields count as absent). -/
theorem formatters_empty_record :
    fmt_edu ⟨[], [], [], [], []⟩ = [] ∧
    fmt_exp ⟨[], [], [], [], []⟩ = [] ∧
    fmt_proj ⟨[], [], [], [], [], []⟩ = [] ∧
    fmt_pub ⟨[], [], [], [], [], []⟩ = [] ∧
    fmt_por ⟨[], [], [], []⟩ = [] := by
  refine ⟨by decide, by decide, by decide, by decide, by decide⟩

/-- C4 (counterexample to the claim as stated): a record whose only content is
the whitespace-only institute field `" "` passes the truthiness guard, and
the education formatter returns `" "`, not the empty string. -/
theorem formatters_whitespace_cex :
    fmt_edu ⟨txt " ", [], [], [], []⟩ = txt " " ∧
    fmt_edu ⟨txt " ", [], [], [], []⟩ ≠ [] := by
  refine ⟨by decide, by decide⟩

/-- C8: the education formatter on the record
`{inst: "MIT", degree: "B.S. CS", cgpa: "3.9", start: "Aug 2020",
end: "May 2024"}` yields exactly
`"MIT — B.S. CS | CGPA 3.9 | Aug 2020 – May 2024"`. -/
theorem fmt_edu_mit :
    fmt_edu ⟨txt "MIT", txt "B.S. CS", txt "3.9", txt "Aug 2020", txt "May 2024"⟩
      = txt "MIT — B.S. CS | CGPA 3.9 | Aug 2020 – May 2024" := by
  decide

/-! ### The Bullet Enforcer (claims C5, C6) -/

theorem bulletStep_false (raw : Str) :
    bulletStep false raw =
      if normalize_heading raw ∈ BULLET_SECTIONS then (true, normalize_heading raw)
      else (false, rstrip raw) := by
  simp only [bulletStep, normalize_rstrip, strip_rstrip]
  by_cases h : normalize_heading raw ∈ BULLET_SECTIONS
  · rw [if_pos h, if_pos h]
  · rw [if_neg h, if_neg h]
    simp

theorem bulletStep_true (raw : Str) :
    bulletStep true raw =
      if normalize_heading raw ∈ BULLET_SECTIONS then (true, normalize_heading raw)
      else if normalize_heading raw ∈ HEADINGS then (false, normalize_heading raw)
      else if ¬(strip raw).isEmpty = true ∧ ¬startsDashSpace (strip raw) = true
        then (true, txt "- " ++ strip raw)
        else (true, rstrip raw) := by
  simp only [bulletStep, normalize_rstrip, strip_rstrip]
  by_cases h1 : normalize_heading raw ∈ BULLET_SECTIONS
  · rw [if_pos h1, if_pos h1]
  · rw [if_neg h1, if_neg h1]
    by_cases h2 : normalize_heading raw ∈ HEADINGS
    · simp [h2]
    · simp [h2]

theorem normalize_blank {raw : Str} (h : (strip raw).isEmpty = true) :
    normalize_heading raw = [] := by
  have hs : strip raw = [] := by simpa using h
  rw [normalize_heading, hs]
  rfl

theorem strip_dash {s : Str} (hne : s ≠ []) (hr : rstrip s = s) :
    strip (txt "- " ++ s) = txt "- " ++ s := by
  have htl : txt "- " = ['-', ' '] := by decide
  rw [htl]
  have h1 : rstrip (['-', ' '] ++ s) = ['-', ' '] ++ s := by
    have := rstrip_append_of_ne_nil ['-', ' '] (t := s) (by rw [hr]; exact hne)
    rw [hr] at this
    exact this
  unfold strip
  rw [h1]
  exact lstrip_cons_of_not _ (by decide)

theorem rstrip_dash {s : Str} (hne : s ≠ []) (hr : rstrip s = s) :
    rstrip (txt "- " ++ s) = txt "- " ++ s := by
  have htl : txt "- " = ['-', ' '] := by decide
  rw [htl]
  have := rstrip_append_of_ne_nil ['-', ' '] (t := s) (by rw [hr]; exact hne)
  rw [hr] at this
  exact this

theorem normalize_dash_head {s : Str} (hne : s ≠ []) (hr : rstrip s = s) :
    (normalize_heading (txt "- " ++ s)).head? = some '-' := by
  have htl : txt "- " = ['-', ' '] := by decide
  have hstrip : strip (txt "- " ++ s) = txt "- " ++ s := strip_dash hne hr
  rw [normalize_heading, hstrip, htl]
  match s, hne with
  | c :: s', _ =>
    rw [show (['-', ' '] : Str) ++ c :: s' = '-' :: ' ' :: c :: s' from rfl]
    unfold dropOneColon
    by_cases hlast : lastIs ('-' :: ' ' :: c :: s') ':' = true
    · rw [if_pos hlast]
      show some (upperChar '-') = some '-'
      decide
    · rw [if_neg hlast]
      show some (upperChar '-') = some '-'
      decide

theorem normalize_dash_not_heading {s : Str} (hne : s ≠ []) (hr : rstrip s = s) :
    normalize_heading (txt "- " ++ s) ∉ HEADINGS :=
  head_dash_not_heading (normalize_dash_head hne hr)

theorem rel_of_heading {raw : Str} (hH : normalize_heading raw ∈ HEADINGS) :
    bulletLineRel raw (normalize_heading raw) := by
  have hf := headings_fixed _ hH
  refine ⟨?_, ?_, ?_, Or.inl ⟨rfl, hH⟩⟩
  · intro hblank
    rw [normalize_blank hblank] at hH
    exact absurd hH nil_not_heading
  · intro _
    have := hf.2.2.2.2.1
    simpa using this
  · intro _
    exact hf.2.2.2.2.2.1

theorem rel_of_rstrip (raw : Str) : bulletLineRel raw (rstrip raw) := by
  refine ⟨?_, ?_, ?_, Or.inr (Or.inl rfl)⟩
  · intro hblank
    exact rstrip_eq_nil_of_strip raw (by simpa using hblank)
  · intro hnb
    rw [strip_rstrip]
    exact hnb
  · intro hnl hc
    exact hnl (mem_rstrip hc)

theorem rel_of_dash {raw : Str} (hne : (strip raw).isEmpty = false)
    (hnh : normalize_heading raw ∉ HEADINGS) :
    bulletLineRel raw (txt "- " ++ strip raw) := by
  have hne' : strip raw ≠ [] := by simpa using hne
  have hr : rstrip (strip raw) = strip raw := rstrip_strip raw
  refine ⟨?_, ?_, ?_, Or.inr (Or.inr ⟨rfl, hne, hnh⟩)⟩
  · intro hblank
    rw [hblank] at hne
    simp at hne
  · intro _
    rw [strip_dash hne' hr]
    simp
    intro hcontra
    exact absurd hcontra (by decide)
  · intro hnl hc
    rcases List.mem_append.mp hc with h' | h'
    · revert h'
      decide
    · exact hnl (mem_strip h')

theorem bulletStep_rel (b : Bool) (raw : Str) :
    bulletLineRel raw (bulletStep b raw).2 := by
  cases b with
  | false =>
    rw [bulletStep_false]
    by_cases h : normalize_heading raw ∈ BULLET_SECTIONS
    · rw [if_pos h]
      exact rel_of_heading (bullet_sub _ h)
    · rw [if_neg h]
      exact rel_of_rstrip raw
  | true =>
    rw [bulletStep_true]
    by_cases h1 : normalize_heading raw ∈ BULLET_SECTIONS
    · rw [if_pos h1]
      exact rel_of_heading (bullet_sub _ h1)
    · rw [if_neg h1]
      by_cases h2 : normalize_heading raw ∈ HEADINGS
      · rw [if_pos h2]
        exact rel_of_heading h2
      · rw [if_neg h2]
        by_cases h3 : ¬(strip raw).isEmpty = true ∧ ¬startsDashSpace (strip raw) = true
        · rw [if_pos h3]
          exact rel_of_dash (by simpa using h3.1) h2
        · rw [if_neg h3]
          exact rel_of_rstrip raw

theorem bulletStep_idem (b : Bool) (raw : Str) :
    bulletStep b (bulletStep b raw).2 = bulletStep b raw := by
  cases b with
  | false =>
    rw [bulletStep_false raw]
    by_cases h : normalize_heading raw ∈ BULLET_SECTIONS
    · rw [if_pos h]
      show bulletStep false (normalize_heading raw) = (true, normalize_heading raw)
      have hf := headings_fixed _ (bullet_sub _ h)
      rw [bulletStep_false, hf.2.2.1, if_pos h]
    · rw [if_neg h]
      show bulletStep false (rstrip raw) = (false, rstrip raw)
      rw [bulletStep_false, normalize_rstrip, if_neg h, rstrip_idem]
  | true =>
    rw [bulletStep_true raw]
    by_cases h1 : normalize_heading raw ∈ BULLET_SECTIONS
    · rw [if_pos h1]
      show bulletStep true (normalize_heading raw) = (true, normalize_heading raw)
      have hf := headings_fixed _ (bullet_sub _ h1)
      rw [bulletStep_true, hf.2.2.1, if_pos h1]
    · rw [if_neg h1]
      by_cases h2 : normalize_heading raw ∈ HEADINGS
      · rw [if_pos h2]
        show bulletStep true (normalize_heading raw) = (false, normalize_heading raw)
        have hf := headings_fixed _ h2
        rw [bulletStep_true, hf.2.2.1, if_neg h1, if_pos h2]
      · rw [if_neg h2]
        by_cases h3 : ¬(strip raw).isEmpty = true ∧ ¬startsDashSpace (strip raw) = true
        · rw [if_pos h3]
          show bulletStep true (txt "- " ++ strip raw) = (true, txt "- " ++ strip raw)
          have hne : strip raw ≠ [] := by simpa using h3.1
          have hr : rstrip (strip raw) = strip raw := rstrip_strip raw
          have hnd := normalize_dash_not_heading hne hr
          have hnb : normalize_heading (txt "- " ++ strip raw) ∉ BULLET_SECTIONS :=
            fun hm => hnd (bullet_sub _ hm)
          rw [bulletStep_true, if_neg hnb, if_neg hnd]
          have hds : startsDashSpace (strip (txt "- " ++ strip raw)) = true := by
            rw [strip_dash hne hr, show txt "- " = ['-', ' '] from by decide]
            rfl
          rw [if_neg (by simp [hds])]
          rw [rstrip_dash hne hr]
        · rw [if_neg h3]
          show bulletStep true (rstrip raw) = (true, rstrip raw)
          rw [bulletStep_true, normalize_rstrip, if_neg h1, if_neg h2, strip_rstrip,
            if_neg h3, rstrip_idem]

theorem bulletGo_cons (b : Bool) (raw : Str) (rest : List Str) :
    bulletGo b (raw :: rest) = (bulletStep b raw).2 :: bulletGo (bulletStep b raw).1 rest :=
  rfl

theorem bulletGo_idem : ∀ (L : List Str) (b : Bool),
    bulletGo b (bulletGo b L) = bulletGo b L := by
  intro L
  induction L with
  | nil => intro b; rfl
  | cons raw rest ih =>
    intro b
    rw [bulletGo_cons, bulletGo_cons, bulletStep_idem, ih]

theorem bulletGo_rel : ∀ (L : List Str) (b : Bool),
    List.Forall₂ bulletLineRel L (bulletGo b L) := by
  intro L
  induction L with
  | nil => intro b; exact List.Forall₂.nil
  | cons raw rest ih =>
    intro b
    exact List.Forall₂.cons (bulletStep_rel b raw) (ih _)

theorem bulletGo_no_nl : ∀ (L : List Str) (b : Bool),
    (∀ l ∈ L, '\n' ∉ l) → ∀ l ∈ bulletGo b L, '\n' ∉ l := by
  intro L
  induction L with
  | nil => intro b _ l hl; simp [bulletGo] at hl
  | cons raw rest ih =>
    intro b h l hl
    rw [bulletGo_cons] at hl
    rcases List.mem_cons.mp hl with rfl | hl'
    · exact (bulletStep_rel b raw).2.2.1 (h raw (List.mem_cons_self _ _))
    · exact ih _ (fun x hx => h x (List.mem_cons_of_mem _ hx)) l hl'

theorem forall₂_getLast? {R : Str → Str → Prop} :
    ∀ (l₁ l₂ : List Str), List.Forall₂ R l₁ l₂ → ∀ a, l₁.getLast? = some a →
      ∃ bb, l₂.getLast? = some bb ∧ R a bb := by
  intro l₁
  induction l₁ with
  | nil => intro l₂ _ a ha; simp at ha
  | cons x t ih =>
    intro l₂ h a ha
    rcases List.forall₂_cons_left_iff.mp h with ⟨y, l₂', hxy, ht, rfl⟩
    match t, ht with
    | [], ht =>
      have : l₂' = [] := List.forall₂_nil_left_iff.mp ht
      subst this
      simp only [List.getLast?_singleton, Option.some_inj] at ha
      subst ha
      exact ⟨y, by simp, hxy⟩
    | t₀ :: t', ht =>
      rw [List.getLast?_cons_cons] at ha
      obtain ⟨bb, hbb, hR⟩ := ih _ ht a ha
      have hl₂' : l₂' ≠ [] := by
        intro hc
        subst hc
        exact absurd (List.forall₂_nil_right_iff.mp ht) (by simp)
      refine ⟨bb, ?_, hR⟩
      match l₂', hl₂' with
      | z :: l₂'', _ =>
        rw [List.getLast?_cons_cons]
        exact hbb

/-- C5 (amended): the Bullet Enforcer is the line-by-line pass `bulletGo`
over the split lines; the pass preserves the number and order of lines, and
every output line is related to its input line by `bulletLineRel`: blank
lines stay blank (emitted as empty lines), non-blank lines stay non-blank,
and each output line is either the normalized uppercase form of a known
heading line, the right-trimmed input line, or `"- "` plus the trimmed
content of a non-blank non-heading line inside a list section. -/
theorem bullet_enforcer_frame (t : Str) :
    enforce_bullets_in_sections t = joinNL (bulletGo false (splitlines t)) ∧
    (∀ (b : Bool) (L : List Str), (bulletGo b L).length = L.length) ∧
    (∀ (b : Bool) (L : List Str), List.Forall₂ bulletLineRel L (bulletGo b L)) := by
  refine ⟨rfl, ?_, fun b L => bulletGo_rel L b⟩
  intro b L
  exact ((bulletGo_rel L b).length_eq).symm

/-- C5 (counterexample to the claim as stated): on `"skills:\nPython x "`
the heading line `"skills:"` is *not* passed through unchanged — it is
rewritten to its normalized form `"SKILLS"` — and the body line additionally
loses its trailing blank. -/
theorem bullet_enforcer_frame_cex :
    enforce_bullets_in_sections (txt "skills:\nPython x ")
      = txt "SKILLS\n- Python x" ∧
    (splitlines (enforce_bullets_in_sections (txt "skills:\nPython x "))).head?
      ≠ some (txt "skills:") := by
  refine ⟨by decide, by decide⟩

/-- C6 (amended): the Bullet Enforcer is idempotent on every text whose last
line is non-blank (and on empty text); its line-level pass is idempotent
unconditionally.  (When the text ends in a blank line the second application
drops that trailing blank, because `"\n".join` ∘ `splitlines` loses a final
empty line.) -/
theorem bullet_enforcer_idem (t : Str)
    (h : lastNonBlank (splitlines t) = true) :
    enforce_bullets_in_sections (enforce_bullets_in_sections t)
      = enforce_bullets_in_sections t := by
  unfold enforce_bullets_in_sections
  match hL : splitlines t with
  | [] => rfl
  | l₀ :: L' =>
    have hnl : ∀ l ∈ l₀ :: L', '\n' ∉ l := by
      rw [← hL]
      exact splitlines_no_nl t
    have hout_nl : ∀ l ∈ bulletGo false (l₀ :: L'), '\n' ∉ l :=
      bulletGo_no_nl _ _ hnl
    obtain ⟨a, hgl⟩ : ∃ a, (l₀ :: L').getLast? = some a := by
      have : ((l₀ :: L').getLast?).isSome := List.getLast?_isSome.mpr (by simp)
      exact Option.isSome_iff_exists.mp this
    have hstrip_a : (strip a).isEmpty = false := by
      rw [hL] at h
      unfold lastNonBlank at h
      rw [hgl] at h
      simpa using h
    obtain ⟨bb, hbb, hab⟩ := forall₂_getLast? _ _ (bulletGo_rel (l₀ :: L') false) a hgl
    have hbb_ne : bb ≠ [] := by
      intro hc
      subst hc
      have := hab.2.1 hstrip_a
      simp [strip, rstrip, lstrip] at this
    have hsplit : splitlines (joinNL (bulletGo false (l₀ :: L')))
        = bulletGo false (l₀ :: L') := by
      rw [splitlines_joinNL hout_nl, if_neg]
      intro hc
      rw [hbb] at hc
      exact hbb_ne (by simpa using hc)
    rw [hsplit, bulletGo_idem]

/-- C6 (counterexample to the claim as stated): on the text `"\n\n"` one
application of the Bullet Enforcer yields `"\n"`, a second yields `""`, so
double application differs from single application. -/
theorem bullet_enforcer_idem_cex :
    enforce_bullets_in_sections (enforce_bullets_in_sections (txt "\n\n"))
      ≠ enforce_bullets_in_sections (txt "\n\n") := by
  decide

/-- C6 witness: idempotence holds on the concrete text `"SKILLS\nPython"`. -/
theorem bullet_enforcer_idem_witness :
    lastNonBlank (splitlines (txt "SKILLS\nPython")) = true ∧
    enforce_bullets_in_sections (enforce_bullets_in_sections (txt "SKILLS\nPython"))
      = enforce_bullets_in_sections (txt "SKILLS\nPython") :=
  ⟨by decide, bullet_enforcer_idem (txt "SKILLS\nPython") (by decide)⟩

/-! ### The Portfolio section-splitter (claims C7, C10) -/

theorem joinNL_concat {init : List Str} (l : Str) (h : init ≠ []) :
    joinNL (init ++ [l]) = joinNL init ++ '\n' :: l := by
  induction init with
  | nil => exact absurd rfl h
  | cons x t ih =>
    match t with
    | [] => simp [joinNL, joinSep, txt]
    | y :: t' =>
      rw [show (x :: y :: t') ++ [l] = x :: ((y :: t') ++ [l]) from rfl,
        joinNL_cons x (by simp), ih (by simp), joinNL_cons x (by simp)]
      simp

theorem body_getLast_ne_nil {body : List Str} (hne : joinNL body ≠ [])
    (hfix : strip (joinNL body) = joinNL body) :
    ∀ l, body.getLast? = some l → l ≠ [] := by
  intro l hl hnil
  subst hnil
  obtain ⟨init, rfl⟩ : ∃ init, body = init ++ [([] : Str)] := by
    obtain ⟨init, hinit⟩ := List.getLast?_eq_some_iff.mp hl
    exact ⟨init, hinit⟩
  match init with
  | [] => exact hne rfl
  | x :: t =>
    rw [joinNL_concat _ (by simp)] at hfix hne
    have hr : rstrip (joinNL (x :: t) ++ '\n' :: []) = joinNL (x :: t) ++ '\n' :: [] :=
      rstrip_eq_self_of_strip hfix
    rw [show joinNL (x :: t) ++ '\n' :: [] = joinNL (x :: t) ++ ['\n'] from rfl,
      rstrip_concat_ws _ (by decide)] at hr
    have h1 : (rstrip (joinNL (x :: t))).length ≤ (joinNL (x :: t)).length := by
      unfold rstrip
      have := (List.dropWhile_sublist (l := (joinNL (x :: t)).reverse)
        (p := pyIsSpace)).length_le
      simpa using this
    have h2 : (joinNL (x :: t) ++ ['\n']).length = (joinNL (x :: t)).length + 1 := by
      simp
    rw [hr] at h1
    omega

theorem serial_last_ne_nil :
    ∀ (secs : List (Str × List Str)),
      (∀ s ∈ secs, s.1 ≠ []) →
      (∀ s ∈ secs, ∀ l, s.2.getLast? = some l → l ≠ []) →
      ∀ l, ((secs.map (fun s => s.1 :: s.2)).flatten).getLast? = some l → l ≠ [] := by
  intro secs
  induction secs with
  | nil => intro _ _ l hl; simp at hl
  | cons s rest ih =>
    intro h1 h2 l hl
    rw [List.map_cons, List.flatten_cons] at hl
    match hrest : rest with
    | [] =>
      simp only [List.map_nil, List.flatten_nil, List.append_nil] at hl
      match hs2 : s.2 with
      | [] =>
        rw [hs2] at hl
        simp only [List.getLast?_singleton, Option.some_inj] at hl
        subst hl
        exact h1 s (List.mem_cons_self _ _)
      | y :: t =>
        rw [hs2, List.getLast?_cons_cons] at hl
        exact h2 s (List.mem_cons_self _ _) l (hs2 ▸ hl)
    | r :: rest' =>
      have hfl : ((( r :: rest').map (fun s => s.1 :: s.2)).flatten) ≠ [] := by
        simp
      rw [List.getLast?_append_of_ne_nil _ hfl] at hl
      exact ih (fun x hx => h1 x (List.mem_cons_of_mem _ hx))
        (fun x hx => h2 x (List.mem_cons_of_mem _ hx)) l hl

theorem scanBlocks_nil_some {c : Str} (buf : List Str) (blocks : List (Str × Str))
    (order : List Str) (hct : pyTruthy c = true) :
    scanBlocks [] (some c) buf blocks order
      = (dictInsert blocks c (strip (joinNL buf)), order) := by
  conv_lhs => rw [scanBlocks.eq_def]
  show (if pyTruthy c = true then dictInsert blocks c (strip (joinNL buf)) else blocks,
    order) = _
  rw [if_pos hct]

theorem scanBlocks_cons_eq (ln : Str) (rest : List Str) (cur : Option Str)
    (buf : List Str) (blocks : List (Str × Str)) (order : List Str) :
    scanBlocks (ln :: rest) cur buf blocks order
      = if normalize_heading ln ∈ HEADINGS then
          match cur with
          | some c =>
            if pyTruthy c then
              scanBlocks rest (some (normalize_heading ln)) []
                (dictInsert blocks c (strip (joinNL buf)))
                (order ++ [normalize_heading ln])
            else
              scanBlocks rest (some (normalize_heading ln)) buf blocks
                (order ++ [normalize_heading ln])
          | none =>
            scanBlocks rest (some (normalize_heading ln)) buf blocks
              (order ++ [normalize_heading ln])
        else
          scanBlocks rest cur (buf ++ [ln]) blocks order := rfl

theorem scanBlocks_cons_other {ln : Str} (rest : List Str) (cur : Option Str)
    (buf : List Str) (blocks : List (Str × Str)) (order : List Str)
    (h : normalize_heading ln ∉ HEADINGS) :
    scanBlocks (ln :: rest) cur buf blocks order
      = scanBlocks rest cur (buf ++ [ln]) blocks order := by
  rw [scanBlocks_cons_eq, if_neg h]

theorem scanBlocks_cons_heading_some {ln c : Str} (rest : List Str)
    (buf : List Str) (blocks : List (Str × Str)) (order : List Str)
    (hln : normalize_heading ln ∈ HEADINGS) (hct : pyTruthy c = true) :
    scanBlocks (ln :: rest) (some c) buf blocks order
      = scanBlocks rest (some (normalize_heading ln)) []
          (dictInsert blocks c (strip (joinNL buf)))
          (order ++ [normalize_heading ln]) := by
  rw [scanBlocks_cons_eq, if_pos hln]
  show (if pyTruthy c = true then
      scanBlocks rest (some (normalize_heading ln)) []
        (dictInsert blocks c (strip (joinNL buf))) (order ++ [normalize_heading ln])
    else
      scanBlocks rest (some (normalize_heading ln)) buf blocks
        (order ++ [normalize_heading ln])) = _
  rw [if_pos hct]

theorem scanBlocks_cons_heading_none {ln : Str} (rest : List Str)
    (buf : List Str) (blocks : List (Str × Str)) (order : List Str)
    (hln : normalize_heading ln ∈ HEADINGS) :
    scanBlocks (ln :: rest) none buf blocks order
      = scanBlocks rest (some (normalize_heading ln)) buf blocks
          (order ++ [normalize_heading ln]) := by
  rw [scanBlocks_cons_eq, if_pos hln]

theorem scanBlocks_body :
    ∀ (body : List Str) (rest : List Str) (cur : Option Str) (buf : List Str)
      (blocks : List (Str × Str)) (order : List Str),
      (∀ ln ∈ body, normalize_heading ln ∉ HEADINGS) →
      scanBlocks (body ++ rest) cur buf blocks order
        = scanBlocks rest cur (buf ++ body) blocks order := by
  intro body
  induction body with
  | nil => intro rest cur buf blocks order _; rw [List.nil_append, List.append_nil]
  | cons ln body' ih =>
    intro rest cur buf blocks order h
    rw [show (ln :: body') ++ rest = ln :: (body' ++ rest) from rfl,
      scanBlocks_cons_other _ _ _ _ _ (h ln (List.mem_cons_self _ _)),
      ih rest cur (buf ++ [ln]) blocks order
        (fun x hx => h x (List.mem_cons_of_mem _ hx)),
      List.append_assoc, List.singleton_append]

theorem scanBlocks_sections :
    ∀ (secs : List (Str × List Str)) (c : Str) (buf : List Str)
      (blocks : List (Str × Str)) (order : List Str),
      c ∈ HEADINGS →
      (∀ s ∈ secs, s.1 ∈ HEADINGS ∧ ∀ ln ∈ s.2, normalize_heading ln ∉ HEADINGS) →
      scanBlocks ((secs.map (fun s => s.1 :: s.2)).flatten) (some c) buf blocks order
        = (List.foldl (fun bl s => dictInsert bl s.1 (strip (joinNL s.2)))
            (dictInsert blocks c (strip (joinNL buf))) secs,
           order ++ secs.map (fun s => s.1)) := by
  intro secs
  induction secs with
  | nil =>
    intro c buf blocks order hc _
    have hct : pyTruthy c = true := by
      have := (headings_fixed c hc).2.2.2.1
      simpa [pyTruthy] using this
    simp only [List.map_nil, List.flatten_nil, List.foldl_nil, List.append_nil]
    exact scanBlocks_nil_some _ _ _ hct
  | cons s rest ih =>
    intro c buf blocks order hc hsecs
    have hs1 : s.1 ∈ HEADINGS := (hsecs s (List.mem_cons_self _ _)).1
    have hs2 : ∀ ln ∈ s.2, normalize_heading ln ∉ HEADINGS :=
      (hsecs s (List.mem_cons_self _ _)).2
    have hns1 : normalize_heading s.1 = s.1 := (headings_fixed _ hs1).2.2.1
    have hct : pyTruthy c = true := by
      have := (headings_fixed c hc).2.2.2.1
      simpa [pyTruthy] using this
    rw [List.map_cons, List.flatten_cons, List.cons_append,
      scanBlocks_cons_heading_some _ _ _ _ (by rw [hns1]; exact hs1) hct, hns1,
      scanBlocks_body _ _ _ _ _ _ hs2, List.nil_append,
      ih s.1 s.2 (dictInsert blocks c (strip (joinNL buf))) (order ++ [s.1])
        hs1 (fun x hx => hsecs x (List.mem_cons_of_mem _ hx))]
    simp only [List.foldl_cons, List.map_cons]
    rw [List.append_assoc, List.singleton_append]

theorem extract_serialize :
    ∀ (secs : List (Str × List Str)), secs ≠ [] →
      (∀ s ∈ secs, s.1 ∈ HEADINGS) →
      (∀ s ∈ secs, ∀ ln ∈ s.2, normalize_heading ln ∉ HEADINGS ∧ '\n' ∉ ln) →
      (∀ s ∈ secs, joinNL s.2 ≠ [] ∧ strip (joinNL s.2) = joinNL s.2) →
      extract_section_blocks (serializeSections secs)
        = (List.foldl (fun bl s => dictInsert bl s.1 (strip (joinNL s.2))) [] secs,
           secs.map (fun s => s.1)) := by
  intro secs hne h1 h2 h3
  have hnl : ∀ l ∈ (secs.map (fun s => s.1 :: s.2)).flatten, '\n' ∉ l := by
    intro l hl
    rw [List.mem_flatten] at hl
    obtain ⟨li, hli, hmem⟩ := hl
    rw [List.mem_map] at hli
    obtain ⟨s, hs, rfl⟩ := hli
    rcases List.mem_cons.mp hmem with rfl | hm
    · exact (headings_fixed _ (h1 s hs)).2.2.2.2.2.1
    · exact (h2 s hs l hm).2
  have hlast : ∀ l, ((secs.map (fun s => s.1 :: s.2)).flatten).getLast? = some l →
      l ≠ [] := by
    apply serial_last_ne_nil
    · intro s hs
      exact (headings_fixed _ (h1 s hs)).2.2.2.1
    · intro s hs l hl
      exact body_getLast_ne_nil (h3 s hs).1 (h3 s hs).2 l hl
  have hsplit : splitlines (joinNL ((secs.map (fun s => s.1 :: s.2)).flatten))
      = (secs.map (fun s => s.1 :: s.2)).flatten := by
    rw [splitlines_joinNL hnl, if_neg]
    intro hc
    exact hlast [] hc rfl
  match secs, hne, h1, h2, h3, hnl, hsplit with
  | s₀ :: rest, _, h1, h2, h3, hnl, hsplit =>
    have hs₀ : s₀.1 ∈ HEADINGS := h1 s₀ (List.mem_cons_self _ _)
    have hn₀ : normalize_heading s₀.1 = s₀.1 := (headings_fixed _ hs₀).2.2.1
    have hskip : headerSkip ((List.map (fun s => s.1 :: s.2) (s₀ :: rest)).flatten)
        = 0 := by
      rw [List.map_cons, List.flatten_cons, List.cons_append]
      unfold headerSkip
      rw [List.takeWhile_cons]
      rw [show (pyTruthy (strip s₀.1) &&
          decide (normalize_heading s₀.1 ∉ HEADINGS)) = false by
        rw [hn₀]
        simp [hs₀]]
      rfl
    rw [show extract_section_blocks (serializeSections (s₀ :: rest))
        = scanBlocks (splitlines (joinNL ((splitlines (serializeSections (s₀ :: rest))).drop
            (headerSkip (splitlines (serializeSections (s₀ :: rest))))))) none [] [] []
        from rfl,
      show serializeSections (s₀ :: rest)
        = joinNL ((List.map (fun s => s.1 :: s.2) (s₀ :: rest)).flatten) from rfl,
      hsplit, hskip, List.drop_zero, hsplit]
    rw [List.map_cons, List.flatten_cons, List.cons_append,
      scanBlocks_cons_heading_none _ _ _ _ (by rw [hn₀]; exact hs₀), hn₀,
      scanBlocks_body _ _ _ _ _ _ (fun ln hln => (h2 s₀ (List.mem_cons_self _ _) ln hln).1),
      List.nil_append,
      scanBlocks_sections rest s₀.1 s₀.2 [] ([] ++ [s₀.1]) hs₀
        (fun s hs => ⟨h1 s (List.mem_cons_of_mem _ hs),
          fun ln hln => (h2 s (List.mem_cons_of_mem _ hs) ln hln).1⟩)]
    simp only [List.foldl_cons, List.map_cons, List.nil_append, List.singleton_append]

theorem dictInsert_fresh :
    ∀ (bl : List (Str × Str)) (k : Str) (v : Str),
      k ∉ bl.map Prod.fst → dictInsert bl k v = bl ++ [(k, v)] := by
  intro bl
  induction bl with
  | nil => intro k v _; rfl
  | cons p rest ih =>
    intro k v hk
    unfold dictInsert
    rw [if_neg]
    · rw [ih k v (fun hm => hk (by simp [hm]))]
      rfl
    · intro hc
      exact hk (by simp [hc])

theorem foldl_dictInsert_fresh :
    ∀ (secs : List (Str × List Str)) (bl : List (Str × Str)),
      (∀ s ∈ secs, s.1 ∉ bl.map Prod.fst) →
      (secs.map (fun s => s.1)).Nodup →
      List.foldl (fun bl s => dictInsert bl s.1 (strip (joinNL s.2))) bl secs
        = bl ++ secs.map (fun s => (s.1, strip (joinNL s.2))) := by
  intro secs
  induction secs with
  | nil => intro bl _ _; rw [List.foldl_nil, List.map_nil, List.append_nil]
  | cons s rest ih =>
    intro bl hfresh hnodup
    rw [List.foldl_cons]
    have hs : s.1 ∉ bl.map Prod.fst := hfresh s (List.mem_cons_self _ _)
    rw [dictInsert_fresh bl s.1 _ hs]
    rw [List.map_cons, List.nodup_cons] at hnodup
    have hrest : ∀ x ∈ rest, x.1 ∉ (bl ++ [(s.1, strip (joinNL s.2))]).map Prod.fst := by
      intro x hx hm
      rw [List.map_append] at hm
      rcases List.mem_append.mp hm with hm | hm
      · exact hfresh x (List.mem_cons_of_mem _ hx) hm
      · simp only [List.map_cons, List.map_nil, List.mem_singleton] at hm
        exact hnodup.1 (by
          rw [List.mem_map]
          exact ⟨x, hx, hm⟩)
    rw [ih _ hrest hnodup.2, List.append_assoc, List.singleton_append, List.map_cons]

/-- C7: round-trip of the section document through serialization and the
Portfolio section-splitter.  For every non-empty section list whose headings
are canonical and pairwise distinct, whose body lines are not themselves
heading lines (and contain no newline), and whose bodies are non-empty and
whitespace-clean, `extract_section_blocks` on the serialized text returns
exactly the same bodies keyed by their headings, in order. -/
theorem extract_roundtrip (secs : List (Str × List Str)) (hne : secs ≠ [])
    (h1 : ∀ s ∈ secs, s.1 ∈ HEADINGS)
    (h2 : ∀ s ∈ secs, ∀ ln ∈ s.2, normalize_heading ln ∉ HEADINGS ∧ '\n' ∉ ln)
    (h3 : ∀ s ∈ secs, joinNL s.2 ≠ [] ∧ strip (joinNL s.2) = joinNL s.2)
    (hnodup : (secs.map (fun s => s.1)).Nodup) :
    extract_section_blocks (serializeSections secs)
      = (secs.map (fun s => (s.1, joinNL s.2)), secs.map (fun s => s.1)) := by
  rw [extract_serialize secs hne h1 h2 h3,
    foldl_dictInsert_fresh secs [] (by simp) hnodup, List.nil_append]
  have : secs.map (fun s => (s.1, strip (joinNL s.2)))
      = secs.map (fun s => (s.1, joinNL s.2)) := by
    apply List.map_congr_left
    intro s hs
    rw [(h3 s hs).2]
  rw [this]

/-- C7 witness: the round-trip theorem applied to a concrete two-section
document. -/
theorem extract_roundtrip_witness :
    extract_section_blocks (serializeSections
        [(txt "EDUCATION", [txt "MIT"]), (txt "SKILLS", [txt "- Python", txt "- Go"])])
      = ([(txt "EDUCATION", joinNL [txt "MIT"]),
          (txt "SKILLS", joinNL [txt "- Python", txt "- Go"])],
         [txt "EDUCATION", txt "SKILLS"]) :=
  extract_roundtrip
    [(txt "EDUCATION", [txt "MIT"]), (txt "SKILLS", [txt "- Python", txt "- Go"])]
    (by decide) (by decide) (by decide) (by decide) (by decide)

/-- C10: when the same canonical heading occurs twice in the serialized text,
`extract_section_blocks` keeps, for that heading, only the (stripped) body
following its *last* occurrence — the body after the earlier occurrence is
silently discarded — while the order list records the heading once per
occurrence. -/
theorem extract_duplicate_heading (h : Str) (b₁ b₂ : List Str)
    (hh : h ∈ HEADINGS)
    (hb₁ : ∀ ln ∈ b₁, normalize_heading ln ∉ HEADINGS ∧ '\n' ∉ ln)
    (hb₂ : ∀ ln ∈ b₂, normalize_heading ln ∉ HEADINGS ∧ '\n' ∉ ln)
    (hg₁ : joinNL b₁ ≠ [] ∧ strip (joinNL b₁) = joinNL b₁)
    (hg₂ : joinNL b₂ ≠ [] ∧ strip (joinNL b₂) = joinNL b₂) :
    extract_section_blocks (serializeSections [(h, b₁), (h, b₂)])
      = ([(h, joinNL b₂)], [h, h]) := by
  rw [extract_serialize [(h, b₁), (h, b₂)] (by simp)
    (by intro s hs; rcases List.mem_cons.mp hs with rfl | hs' <;>
      simp_all [List.mem_singleton])
    (by intro s hs; rcases List.mem_cons.mp hs with rfl | hs' <;>
      simp_all [List.mem_singleton])
    (by intro s hs; rcases List.mem_cons.mp hs with rfl | hs' <;>
      simp_all [List.mem_singleton])]
  simp only [List.foldl_cons, List.foldl_nil, List.map_cons, List.map_nil]
  rw [show dictInsert [] h (strip (joinNL b₁)) = [(h, strip (joinNL b₁))] from rfl]
  rw [show dictInsert [(h, strip (joinNL b₁))] h (strip (joinNL b₂))
    = [(h, strip (joinNL b₂))] by unfold dictInsert; rw [if_pos rfl]]
  rw [hg₂.2]

/-- C10 witness: the duplicate-heading theorem applied to a concrete text with
two SKILLS sections. -/
theorem extract_duplicate_heading_witness :
    extract_section_blocks (serializeSections
        [(txt "SKILLS", [txt "- a"]), (txt "SKILLS", [txt "- b"])])
      = ([(txt "SKILLS", joinNL [txt "- b"])], [txt "SKILLS", txt "SKILLS"]) :=
  extract_duplicate_heading (txt "SKILLS") [txt "- a"] [txt "- b"]
    (by decide) (by decide) (by decide) (by decide) (by decide)

/-! ### The scoring function (claim C9) -/

/-- C9: `ats_score` never errors: for every outcome of the model call and
JSON parsing pipeline — success with any integer score and any reason list,
or an exception — the result is either the silent "no score" triple
`(None, [], mode)` or a score clamped into `0–100` together with at most 4
reason strings. -/
theorem ats_score_safe (jd target_role : Str) (parsed : Except Unit (Int × List Str)) :
    ats_score jd target_role parsed = (none, [], atsMode jd target_role) ∨
    ∃ s rs, ats_score jd target_role parsed = (some s, rs, atsMode jd target_role) ∧
      0 ≤ s ∧ s ≤ 100 ∧ rs.length ≤ 4 := by
  match parsed with
  | .error _ => exact Or.inl rfl
  | .ok (s, rs) =>
    refine Or.inr ⟨max 0 (min 100 s), rs.take 4, rfl, ?_, ?_, ?_⟩
    · exact le_max_left 0 _
    · exact max_le (by norm_num) (min_le_left _ _)
    · rw [List.length_take]
      exact min_le_left _ _

end Resume
